import Mathlib

/-!
Verification of the `par_io` parallel file write engine (`src/write.rs`) and its
positional I/O primitives (`src/io/io_at_unix.rs`).

The Rust code is shallowly embedded as executable Lean definitions:

* `u64` arithmetic is modelled by `Nat`, with the Rust operations that can
  panic (subtraction underflow, division and remainder by zero) modelled by
  checked operations returning `Option Nat` (`none` = the Rust computation
  panics in debug mode / has no meaningful value).
* The producer thread body (`build_producers`, write.rs:235-287) is modelled as
  a pure loop over the list of `Produce` messages it receives, emitting the
  messages it sends (`Consume`, `End`, `Error`) as a trace.
* The consumer thread body (`build_consumers`, write.rs:305-352) is modelled as
  a pure loop over the finite list of messages received before its channel
  closes; the result is `Option`-wrapped, `none` marking that the Rust loop
  never exits (the `break` on a closed channel at write.rs:348 is commented
  out, so `recv()` failure leads to an endless `loop`).
* The `pread`/`pwrite` retry loops of `io_at_unix.rs` are modelled as loops
  over a schedule of OS return values, recording the file offset and size of
  every successful transfer.
* A producer callback (`Fn(&mut Vec<u8>, &T, u64) -> Result<(), E>` with
  `E = String`) is modelled as a function of the file offset it is invoked
  with; per the interface contract it fills the buffer in place and leaves the
  buffer's logical length unchanged. The file system itself is abstracted:
  writes always succeed (no claim below concerns OS write failures inside a
  consumer), and a consumer's accumulated byte count is tracked directly.
-/

/-- Checked `u64` subtraction: `none` models the Rust debug-mode panic on
underflow. -/
def checkedSub (a b : Nat) : Option Nat :=
  if b ≤ a then some (a - b) else none

/-- Checked `u64` division: `none` models the Rust panic on division by
zero. -/
def checkedDiv (a b : Nat) : Option Nat :=
  if b = 0 then none else some (a / b)

/-- Checked `u64` remainder: `none` models the Rust panic on `% 0`. -/
def checkedRem (a b : Nat) : Option Nat :=
  if b = 0 then none else some (a % b)

/-- The six partition sizes computed by `write_to_file` (write.rs:145-152):
`producer_chunk_size`, `last_producer_chunk_size`, `task_chunk_size`,
`last_task_chunk_size`, `last_prod_task_chunk_size`,
`last_last_prod_task_chunk_size`. -/
structure Sizes where
  pc : Nat
  lpc : Nat
  tc : Nat
  ltc : Nat
  lptc : Nat
  lltc : Nat
  deriving DecidableEq, Repr

/-- The size computations at the top of `write_to_file` (write.rs:144-152),
line by line, with every `u64` subtraction and division checked.  `N` is
`total_size`, `P` is `num_producers`, `K` is `chunks_per_producer`.  A `none`
result means the Rust code panics (underflow or division by zero) before any
thread is spawned. -/
def prologueChecked (N P K : Nat) : Option Sizes :=
  (checkedSub (N + P) 1).bind fun t1 =>
  (checkedDiv t1 P).bind fun pc =>
  (checkedSub N ((P - 1) * pc)).bind fun lpc =>
  (checkedSub (pc + K) 1).bind fun t2 =>
  (checkedDiv t2 K).bind fun tc =>
  (checkedSub pc ((K - 1) * tc)).bind fun ltc =>
  (checkedSub (lpc + K) 1).bind fun t3 =>
  (checkedDiv t3 K).bind fun lptc =>
  (checkedSub lpc ((K - 1) * lptc)).map fun lltc =>
  ⟨pc, lpc, tc, ltc, lptc, lltc⟩

/-- `select_tx` (write.rs:81-88) with the `%` checked: the first and last
arguments are ignored by the source, and `% 0` panics. -/
def selectTxChecked (i prev numConsumers numProducers : Nat) : Option Nat :=
  checkedRem (prev + 1) numConsumers

/-- The `reserved_size` computed at write.rs:169-171:
`last_task_chunk_size.max(last_last_prod_task_chunk_size).max(task_chunk_size)`. -/
def reservedSize (s : Sizes) : Nat :=
  max (max s.ltc s.lltc) s.tc

/-- The `Config` record (write.rs:18-22), with the `producer_tx` channel handle
represented by the index of the producer it belongs to; the `consumers` list is
the same for every config and is represented globally by the consumer count. -/
structure PCfg where
  producerIdx : Nat
  offset : Nat
  deriving DecidableEq, Repr

/-- A message sent by a producer thread, tagged with the consumer index it is
sent to: `Consume(cfg, buffer)` (the buffer represented by its logical
length), `End(i, P)`, or `Error(ProducerError)` (write.rs:28-35). -/
inductive PEvent
  | consume (target : Nat) (cfg : PCfg) (len : Nat)
  | endSig (target : Nat)
  | errorSig (target : Nat) (msg : String) (offset : Nat)
  deriving DecidableEq, Repr

/-- Rust `Debug` escaping of one character, as used by `format!` with the
debug specifier on a `String` (the escapes relevant to plain text). -/
def rustDebugEscapeChar (c : Char) : String :=
  if c = '"' then "\\\"" else
  if c = '\\' then "\\\\" else
  if c = '\n' then "\\n" else
  if c = '\t' then "\\t" else
  if c = '\r' then "\\r" else
  String.singleton c

/-- Rust `Debug` formatting of a `String` error value, as produced by
`format!` with the debug specifier at write.rs:262: the text is escaped and
wrapped in double quotes. -/
def rustDebugFmt (s : String) : String :=
  "\"" ++ String.join (s.toList.map rustDebugEscapeChar) ++ "\""

/-- The body of a producer thread (write.rs:235-287): one iteration per
`Produce(cfg, buffer)` message received on its channel.  Each iteration
computes `chunk_size = min(task_chunk, end_offset - offset)`, picks the next
consumer by round robin, runs the callback at the current offset, and on
success sends `Consume` to that consumer, advancing the offset; when the
offset reaches `end_offset` it broadcasts `End` to every consumer and stops.
On a callback error it broadcasts `Error` with the Debug-formatted message and
the current offset to every consumer and stops.  An empty input list models
the channel closing (`while let` exits). -/
def producerLoop (C tc endOff : Nat) (cb : Nat → Except String Unit) :
    List PCfg → Nat → Nat → List PEvent
  | [], _, _ => []
  | cfg :: rest, offset, prev =>
    let chunk := min tc (endOff - offset)
    let c := (prev + 1) % C
    match cb offset with
    | Except.error e =>
        (List.range C).map fun x => PEvent.errorSig x (rustDebugFmt e) offset
    | Except.ok _ =>
        PEvent.consume c { cfg with offset := offset } chunk ::
          (if endOff ≤ offset + chunk then (List.range C).map PEvent.endSig
           else producerLoop C tc endOff cb rest (offset + chunk) c)

/-- Start offset of producer `i`: `producer_chunk_size * i` (write.rs:226). -/
def producerStart (s : Sizes) (i : Nat) : Nat := s.pc * i

/-- The byte share of producer `i`: `producer_chunk_size` for all but the last
producer, `last_producer_chunk_size` for the last (write.rs:227-231). -/
def producerShare (P : Nat) (s : Sizes) (i : Nat) : Nat :=
  if i = P - 1 then s.lpc else s.pc

/-- The per-task chunk size used by producer `i` (write.rs:238-242). -/
def producerTaskChunk (P : Nat) (s : Sizes) (i : Nat) : Nat :=
  if i = P - 1 then s.lptc else s.tc

/-- `end_offset` of producer `i` (write.rs:227-231). -/
def producerEndOff (P : Nat) (s : Sizes) (i : Nat) : Nat :=
  producerStart s i + producerShare P s i

/-- The always-succeeding producer callback. -/
def cbOk : Nat → Except String Unit := fun _ => Except.ok ()

/-- The full message trace of producer `i` when it is fed enough `Produce`
messages to finish its range (one more than its byte share suffices, since
every dispatched chunk except a final zero-length one moves the offset by at
least one byte).  Every seeded config carries producer `i`'s own channel
handle and start offset, as set up by `launch` (write.rs:397-401). -/
def producerEvents (P C : Nat) (s : Sizes) (cb : Nat → Except String Unit) (i : Nat) :
    List PEvent :=
  producerLoop C (producerTaskChunk P s i) (producerEndOff P s i) cb
    (List.replicate (producerShare P s i + 1)
      { producerIdx := i, offset := producerStart s i })
    (producerStart s i) i

/-- The `(offset, length)` pairs of the `Consume` messages in a trace. -/
def consumeChunks (es : List PEvent) : List (Nat × Nat) :=
  es.filterMap fun e =>
    match e with
    | PEvent.consume _ cfg len => some (cfg.offset, len)
    | _ => none

/-- The consumer indices targeted by the `Consume` messages in a trace. -/
def consumeTargets (es : List PEvent) : List Nat :=
  es.filterMap fun e =>
    match e with
    | PEvent.consume t _ _ => some t
    | _ => none

/-- The `(offset, length)` chunks dispatched by producer `i` when every
callback invocation succeeds. -/
def dispatchedChunks (P C : Nat) (s : Sizes) (i : Nat) : List (Nat × Nat) :=
  consumeChunks (producerEvents P C s cbOk i)

/-- All chunks dispatched by the engine, producers in index order. -/
def allDispatched (P C : Nat) (s : Sizes) : List (Nat × Nat) :=
  (List.range P).flatMap (dispatchedChunks P C s)

/-- Chunk list `l` tiles the byte range starting at `st`: each chunk begins
exactly where the previous one ended.  Together with the total length this
captures that chunks are dispatched in ascending offset order, are pairwise
disjoint, and leave no gap. -/
def consecutiveFrom : Nat → List (Nat × Nat) → Bool
  | _, [] => true
  | st, c :: rest => (c.1 == st) && consecutiveFrom (st + c.2) rest

/-- Sum of the chunk lengths of a chunk list. -/
def chunkLenSum (l : List (Nat × Nat)) : Nat :=
  l.foldr (fun c a => c.2 + a) 0

/-- The largest chunk length dispatched across the whole partition. -/
def maxChunkLen (P C : Nat) (s : Sizes) : Nat :=
  ((allDispatched P C s).map Prod.snd).foldr max 0

/-- A pre-allocated buffer: its capacity and its logical length
(`Vec::reserve` plus `set_len`, write.rs:387-396). -/
structure BufM where
  cap : Nat
  len : Nat
  deriving DecidableEq, Repr

/-- One `Produce(cfg, buffer)` message seeded by `launch`, tagged with the
index of the producer queue it is sent to. -/
structure Seeded where
  queueIdx : Nat
  cfg : PCfg
  buf : BufM
  deriving DecidableEq, Repr

/-- The seeding performed by `launch` (write.rs:368-407): for each producer
`i` it sends `min(chunks_per_producer, num_buffers_per_producer)` buffers into
producer `i`'s queue.  Each buffer reserves capacity `2 * reserved_size`.  Its
initial logical length reflects the source as called from `write_to_file`
(write.rs:172-181): the caller passes `last_producer_chunk_size` for the
parameter that `launch` names `task_chunk_size` and `task_chunk_size` for the
parameter named `last_producer_task_chunk_size`, so non-last producers get
initial length `lpc` and the last producer gets `tc`.  Every config carries
the owning producer's channel handle and its start offset. -/
def launchSeeds (P C K B : Nat) (s : Sizes) : List Seeded :=
  (List.range P).flatMap fun i =>
    (List.range (min K B)).map fun _ =>
      { queueIdx := i
        cfg := { producerIdx := i, offset := s.pc * i }
        buf := { cap := 2 * reservedSize s
                 len := if i ≠ P - 1 then s.lpc else s.tc } }

/-- `ProducerError` (write.rs:49-52). -/
structure ProducerErrorM where
  msg : String
  offset : Nat
  deriving DecidableEq, Repr

/-- `WriteError` (write.rs:56-63), with `std::io::Error` and the join-failure
payload represented by their message strings. -/
inductive WriteErrorM
  | producerErr (pe : ProducerErrorM)
  | ioErr (s : String)
  | otherErr (s : String)
  deriving DecidableEq, Repr

/-- `ReadError` of the read path (variants per the crate docs, lib.rs:71-83),
carried by `io_at_unix::read_bytes_at`. -/
inductive ReadErrorM
  | ioErr (s : String)
  | sendErr (s : String)
  | otherErr (s : String)
  deriving DecidableEq, Repr

/-- A message as received by a consumer thread: `Consume(cfg, buffer)` with
the buffer's logical length, `End(producer_id, num_producers)`, or
`Error(ProducerError)`. -/
inductive CMsg
  | consume (cfg : PCfg) (len : Nat)
  | endSig (prodId : Nat) (numProducers : Nat)
  | errMsg (msg : String) (offset : Nat)
  deriving DecidableEq, Repr

/-- The body of a consumer thread (write.rs:305-352) over the finite list of
messages received before its channel closes.  First component: `some r` when
the loop exits with result `r` (`Ok(bytes)` once the `End` count reaches the
announced producer total, `Err(Producer(e))` on an `Error` message); `none`
when the message list is exhausted with the loop still running — the `break`
on a failed `recv()` is commented out (write.rs:344-349), so the Rust loop
then spins forever.  Second component: the producer queue index to which each
processed `Consume`'s buffer is sent back (`cfg.producer_tx`, write.rs:325).
File writes are abstracted as succeeding; `bytes` accumulates the buffer
lengths. -/
def consumerRun : List CMsg → Nat → Nat → Option (Except WriteErrorM Nat) × List Nat
  | [], _, _ => (none, [])
  | CMsg.errMsg m o :: _, _, _ =>
      (some (Except.error (WriteErrorM.producerErr ⟨m, o⟩)), [])
  | CMsg.consume cfg len :: rest, ec, b =>
      let r := consumerRun rest ec (b + len)
      (r.1, cfg.producerIdx :: r.2)
  | CMsg.endSig _ p :: rest, ec, b =>
      if p ≤ ec + 1 then (some (Except.ok b), [])
      else consumerRun rest (ec + 1) b

/-- The join loop at the end of `write_to_file` (write.rs:183-199): consumer
results are inspected in consumer order, byte counts are summed, and the first
error encountered is returned. -/
def joinConsumers : List (Except WriteErrorM Nat) → Nat → Except WriteErrorM Nat
  | [], acc => Except.ok acc
  | Except.ok b :: rest, acc => joinConsumers rest (acc + b)
  | Except.error e :: _, _ => Except.error e

/-- The value returned by `write_to_file` after `launch`, as a function of the
worker thread results.  `build_producers` (write.rs:235) drops the producers'
`JoinHandle`s — only their `Sender`s are returned — so the producer threads'
`Result` values never reach `write_to_file`; only the consumer join results
(write.rs:183-199) determine the outcome. -/
def writeToFileOutcome (producerResults : List (Except String Unit))
    (consumerResults : List (Except WriteErrorM Nat)) : Except WriteErrorM Nat :=
  joinConsumers consumerResults 0

/-- The return value of one `pread`/`pwrite` call: an OS error (carrying the
formatted `last_os_error` text) or a byte count. -/
inductive OsRet
  | errRet (e : String)
  | okRet (n : Nat)
  deriving DecidableEq, Repr

/-- The retry loop of `io_at_unix::read_bytes_at` (io_at_unix.rs:20-45) run
against a schedule of OS return values, one per `pread` call.  Returns the
`(file offset, bytes transferred)` of each successful call together with the
outcome: `some (ok)` when `len` bytes have been transferred, `some (error)`
when a call fails (the source wraps the OS error text in `ReadError::Other`),
and `none` when the schedule is exhausted with the loop still unfinished.
Faithful to the source, after each call the loop adds the new cumulative
count `data_read` — not the size of that call's transfer — to `offset`. -/
def readBytesAtRun (len : Nat) :
    List OsRet → Nat → Nat → List (Nat × Nat) × Option (Except ReadErrorM Unit)
  | [], dataRead, _ =>
      if len ≤ dataRead then ([], some (Except.ok ())) else ([], none)
  | OsRet.errRet e :: _, dataRead, _ =>
      if len ≤ dataRead then ([], some (Except.ok ()))
      else ([], some (Except.error (ReadErrorM.otherErr e)))
  | OsRet.okRet n :: rest, dataRead, offset =>
      if len ≤ dataRead then ([], some (Except.ok ()))
      else
        let ret := min n (len - dataRead)
        let dr := dataRead + ret
        let r := readBytesAtRun len rest dr (offset + dr)
        ((offset, ret) :: r.1, r.2)

/-- The retry loop of `io_at_unix::write_bytes_at` (io_at_unix.rs:49-73),
structured exactly like `readBytesAtRun` (the source wraps an OS error in
`WriteError::Other` and likewise adds the cumulative `written` count to
`offset` after each call). -/
def writeBytesAtRun (len : Nat) :
    List OsRet → Nat → Nat → List (Nat × Nat) × Option (Except WriteErrorM Unit)
  | [], written, _ =>
      if len ≤ written then ([], some (Except.ok ())) else ([], none)
  | OsRet.errRet e :: _, written, _ =>
      if len ≤ written then ([], some (Except.ok ()))
      else ([], some (Except.error (WriteErrorM.otherErr e)))
  | OsRet.okRet n :: rest, written, offset =>
      if len ≤ written then ([], some (Except.ok ()))
      else
        let ret := min n (len - written)
        let wr := written + ret
        let r := writeBytesAtRun len rest wr (offset + wr)
        ((offset, ret) :: r.1, r.2)

/-! Helper lemmas. -/

/-- Unfolding of a successful run of the `write_to_file` size prologue: the
checked computation succeeds exactly when `P` and `K` are positive and no
`u64` subtraction underflows, and then the six sizes are the source's
formulas. -/
theorem checkedSub_eq_some {a b v : Nat} : checkedSub a b = some v ↔ b ≤ a ∧ v = a - b := by
  unfold checkedSub
  split_ifs with hb
  · simp [hb, eq_comm]
  · simp [hb]

theorem checkedDiv_eq_some {a b v : Nat} : checkedDiv a b = some v ↔ b ≠ 0 ∧ v = a / b := by
  unfold checkedDiv
  split_ifs with hb
  · simp [hb]
  · simp [hb, eq_comm]

theorem prologue_some {N P K : Nat} {s : Sizes} (h : prologueChecked N P K = some s) :
    0 < P ∧ 0 < K ∧
      s.pc = (N + P - 1) / P ∧ (P - 1) * s.pc ≤ N ∧ s.lpc = N - (P - 1) * s.pc ∧
      s.tc = (s.pc + K - 1) / K ∧ (K - 1) * s.tc ≤ s.pc ∧ s.ltc = s.pc - (K - 1) * s.tc ∧
      s.lptc = (s.lpc + K - 1) / K ∧ (K - 1) * s.lptc ≤ s.lpc ∧
      s.lltc = s.lpc - (K - 1) * s.lptc ∧ N ≤ P * s.pc := by
  rw [prologueChecked, Option.bind_eq_some] at h
  obtain ⟨t1, h1, h⟩ := h
  rw [Option.bind_eq_some] at h
  obtain ⟨pc, h2, h⟩ := h
  rw [Option.bind_eq_some] at h
  obtain ⟨lpc, h3, h⟩ := h
  rw [Option.bind_eq_some] at h
  obtain ⟨t2, h4, h⟩ := h
  rw [Option.bind_eq_some] at h
  obtain ⟨tc, h5, h⟩ := h
  rw [Option.bind_eq_some] at h
  obtain ⟨ltc, h6, h⟩ := h
  rw [Option.bind_eq_some] at h
  obtain ⟨t3, h7, h⟩ := h
  rw [Option.bind_eq_some] at h
  obtain ⟨lptc, h8, h⟩ := h
  rw [Option.map_eq_some'] at h
  obtain ⟨lltc, h9, h⟩ := h
  rw [checkedSub_eq_some] at h1 h3 h4 h6 h7 h9
  rw [checkedDiv_eq_some] at h2 h5 h8
  obtain ⟨h1a, h1b⟩ := h1
  obtain ⟨h2a, h2b⟩ := h2
  obtain ⟨h3a, h3b⟩ := h3
  obtain ⟨h4a, h4b⟩ := h4
  obtain ⟨h5a, h5b⟩ := h5
  obtain ⟨h6a, h6b⟩ := h6
  obtain ⟨h7a, h7b⟩ := h7
  obtain ⟨h8a, h8b⟩ := h8
  obtain ⟨h9a, h9b⟩ := h9
  subst h
  have hP : 0 < P := Nat.pos_of_ne_zero h2a
  have hK : 0 < K := Nat.pos_of_ne_zero h5a
  have hpc : pc = (N + P - 1) / P := by rw [h2b, h1b]
  have htc : tc = (pc + K - 1) / K := by rw [h5b, h4b]
  have hlptc : lptc = (lpc + K - 1) / K := by rw [h8b, h7b]
  refine ⟨hP, hK, hpc, h3a, h3b, htc, h6a, h6b, hlptc, h9a, h9b, ?_⟩
  have hd := Nat.div_add_mod (N + P - 1) P
  have hm := Nat.mod_lt (N + P - 1) hP
  simp only [hpc]
  omega

theorem consumeChunks_cons_consume (t : Nat) (cfg : PCfg) (len : Nat) (es : List PEvent) :
    consumeChunks (PEvent.consume t cfg len :: es) = (cfg.offset, len) :: consumeChunks es :=
  rfl

theorem consumeTargets_cons_consume (t : Nat) (cfg : PCfg) (len : Nat) (es : List PEvent) :
    consumeTargets (PEvent.consume t cfg len :: es) = t :: consumeTargets es :=
  rfl

theorem consecutiveFrom_nil (st : Nat) : consecutiveFrom st [] = true := rfl

theorem consecutiveFrom_cons (st : Nat) (c : Nat × Nat) (l : List (Nat × Nat)) :
    consecutiveFrom st (c :: l) = ((c.1 == st) && consecutiveFrom (st + c.2) l) := rfl

theorem chunkLenSum_nil : chunkLenSum [] = 0 := rfl

theorem chunkLenSum_cons (c : Nat × Nat) (l : List (Nat × Nat)) :
    chunkLenSum (c :: l) = c.2 + chunkLenSum l := rfl

theorem consumeChunks_endSigs (l : List Nat) :
    consumeChunks (l.map PEvent.endSig) = [] := by
  induction l with
  | nil => rfl
  | cons a t ih => simpa [consumeChunks] using ih

theorem consumeChunks_errorSigs (l : List Nat) (msg : String) (o : Nat) :
    consumeChunks (l.map fun x => PEvent.errorSig x msg o) = [] := by
  induction l with
  | nil => rfl
  | cons a t ih => simpa [consumeChunks] using ih

theorem consumeTargets_endSigs (l : List Nat) :
    consumeTargets (l.map PEvent.endSig) = [] := by
  induction l with
  | nil => rfl
  | cons a t ih => simpa [consumeTargets] using ih

theorem consumeTargets_errorSigs (l : List Nat) (msg : String) (o : Nat) :
    consumeTargets (l.map fun x => PEvent.errorSig x msg o) = [] := by
  induction l with
  | nil => rfl
  | cons a t ih => simpa [consumeTargets] using ih

/-- Core dispatch lemma: with a positive per-task chunk size and enough
`Produce` messages, the chunks emitted by the producer loop tile the range
from the current offset up to `end_offset`, in ascending order. -/
theorem producerLoop_chunks_cover (C tc endOff : Nat) (htc : 0 < tc) :
    ∀ (cfgs : List PCfg) (off prev : Nat), off < endOff → endOff - off ≤ cfgs.length →
      consecutiveFrom off (consumeChunks (producerLoop C tc endOff cbOk cfgs off prev)) = true ∧
      chunkLenSum (consumeChunks (producerLoop C tc endOff cbOk cfgs off prev)) = endOff - off := by
  intro cfgs
  induction cfgs with
  | nil =>
    intro off prev h1 h2
    simp only [List.length_nil, Nat.le_zero] at h2
    omega
  | cons cfg rest ih =>
    intro off prev h1 h2
    have hchunk1 : 1 ≤ min tc (endOff - off) := Nat.le_min.mpr ⟨htc, by omega⟩
    have hchunk2 : min tc (endOff - off) ≤ endOff - off := Nat.min_le_right _ _
    by_cases hdone : endOff ≤ off + min tc (endOff - off)
    · have hx : min tc (endOff - off) = endOff - off := by omega
      simp only [producerLoop, cbOk, if_pos hdone, consumeChunks_cons_consume,
        consumeChunks_endSigs, consecutiveFrom_cons, consecutiveFrom_nil, chunkLenSum_cons,
        chunkLenSum_nil]
      refine ⟨by simp, by omega⟩
    · have hrec := ih (off + min tc (endOff - off)) ((prev + 1) % C) (by omega)
        (by simp only [List.length_cons] at h2; omega)
      simp only [producerLoop, cbOk, if_neg hdone, consumeChunks_cons_consume,
        consecutiveFrom_cons, chunkLenSum_cons, hrec.1, hrec.2]
      refine ⟨by simp, by omega⟩

theorem consecutiveFrom_append (l1 l2 : List (Nat × Nat)) :
    ∀ st, consecutiveFrom st (l1 ++ l2) =
      (consecutiveFrom st l1 && consecutiveFrom (st + chunkLenSum l1) l2) := by
  induction l1 with
  | nil => intro st; simp [consecutiveFrom_nil, chunkLenSum_nil]
  | cons c t ih =>
    intro st
    rw [List.cons_append, consecutiveFrom_cons, consecutiveFrom_cons, ih (st + c.2),
      chunkLenSum_cons, Bool.and_assoc, Nat.add_assoc]

theorem chunkLenSum_append (l1 l2 : List (Nat × Nat)) :
    chunkLenSum (l1 ++ l2) = chunkLenSum l1 + chunkLenSum l2 := by
  induction l1 with
  | nil => simp [chunkLenSum]
  | cons c t ih => simp only [List.cons_append, chunkLenSum, List.foldr_cons] at *; omega

/-- The trace of a producer whose share is zero: one zero-length `Consume`
followed by the `End` broadcast. -/
theorem producerEvents_zero_share (P C : Nat) (s : Sizes) (i : Nat)
    (hz : producerShare P s i = 0) :
    producerEvents P C s cbOk i =
      PEvent.consume ((i + 1) % C) { producerIdx := i, offset := producerStart s i } 0 ::
        (List.range C).map PEvent.endSig := by
  unfold producerEvents producerEndOff
  rw [hz]
  simp only [Nat.add_zero, Nat.zero_add, List.replicate_one, producerLoop, cbOk,
    Nat.sub_self, Nat.min_zero, le_refl, if_true]

/-- Per-producer dispatch: producer `i`'s chunks tile its assigned range and
their lengths sum to exactly its share (a zero-share producer dispatches a
single zero-length chunk at its start offset). -/
theorem dispatchedChunks_cover (N P K C : Nat) (s : Sizes) (i : Nat)
    (h : prologueChecked N P K = some s) :
    consecutiveFrom (producerStart s i) (dispatchedChunks P C s i) = true ∧
    chunkLenSum (dispatchedChunks P C s i) = producerShare P s i := by
  obtain ⟨hP, hK, hpc, hub, hlpc, htc, -, -, hlptc, -, -, -⟩ := prologue_some h
  by_cases hz : producerShare P s i = 0
  · unfold dispatchedChunks
    rw [producerEvents_zero_share P C s i hz, consumeChunks_cons_consume,
      consumeChunks_endSigs, hz]
    simp [consecutiveFrom_cons, consecutiveFrom_nil, chunkLenSum_cons, chunkLenSum_nil]
  · have hpos : 0 < producerShare P s i := Nat.pos_of_ne_zero hz
    have htcpos : 0 < producerTaskChunk P s i := by
      unfold producerShare at hpos
      unfold producerTaskChunk
      split_ifs at * with hlast
      · rw [hlptc]
        have h1 : 1 ≤ (s.lpc + K - 1) / K := (Nat.one_le_div_iff hK).mpr (by omega)
        omega
      · rw [htc]
        have h1 : 1 ≤ (s.pc + K - 1) / K := (Nat.one_le_div_iff hK).mpr (by omega)
        omega
    have hcover := producerLoop_chunks_cover C (producerTaskChunk P s i)
      (producerEndOff P s i) htcpos
      (List.replicate (producerShare P s i + 1)
        { producerIdx := i, offset := producerStart s i })
      (producerStart s i) i (by unfold producerEndOff; omega)
      (by simp [producerEndOff])
    unfold dispatchedChunks producerEvents
    have hd : producerEndOff P s i - producerStart s i = producerShare P s i := by
      unfold producerEndOff
      omega
    rw [hd] at hcover
    exact hcover

theorem allDispatched_cover_aux (N P K C : Nat) (s : Sizes)
    (h : prologueChecked N P K = some s) :
    ∀ m, m ≤ P →
      consecutiveFrom 0 ((List.range m).flatMap (dispatchedChunks P C s)) = true ∧
      chunkLenSum ((List.range m).flatMap (dispatchedChunks P C s)) =
        (if m = P then N else s.pc * m) := by
  obtain ⟨hP, hK, hpc, hub, hlpc, htc, -, -, -, -, -, hple⟩ := prologue_some h
  intro m
  induction m with
  | zero =>
    intro _
    refine ⟨rfl, ?_⟩
    rw [List.range_zero, List.flatMap_nil, chunkLenSum_nil]
    split_ifs with h0
    · omega
    · simp
  | succ m ih =>
    intro hm1
    obtain ⟨ih1, ih2⟩ := ih (by omega)
    rw [if_neg (by omega)] at ih2
    obtain ⟨hc1, hc2⟩ := dispatchedChunks_cover N P K C s m h
    have hsplit : (List.range (m + 1)).flatMap (dispatchedChunks P C s) =
        (List.range m).flatMap (dispatchedChunks P C s) ++ dispatchedChunks P C s m := by
      rw [List.range_succ, List.flatMap_append, List.flatMap_cons, List.flatMap_nil,
        List.append_nil]
    rw [hsplit, chunkLenSum_append, consecutiveFrom_append, ih1, ih2]
    constructor
    · have hs : (0 : Nat) + s.pc * m = producerStart s m := by
        unfold producerStart
        omega
      rw [hs, hc1]
      rfl
    · rw [hc2]
      split_ifs with hPm
      · have hshare : producerShare P s m = s.lpc := by
          unfold producerShare
          rw [if_pos (by omega)]
        rw [hshare]
        subst hPm
        have hm1e : m + 1 - 1 = m := by omega
        rw [hm1e] at hub hlpc
        rw [Nat.mul_comm s.pc m]
        omega
      · have hshare : producerShare P s m = s.pc := by
          unfold producerShare
          rw [if_neg (by omega)]
        rw [hshare]
        ring

/-- C1 (amended): whenever the size prologue of `write_to_file` completes
without `u64` underflow (`prologueChecked = some s`; it underflows for example
at `N = 1, P = 3`), the partition is as claimed: producer `i` starts at
`i * producer_chunk_size`, dispatches its chunks in ascending offset order
with lengths summing to exactly its share (`producer_chunk_size`, or
`last_producer_chunk_size` for the last producer), and the chunks of all
producers together tile `[0, N)` exactly — pairwise disjoint with no gap. -/
theorem write_partition_covers (N P K C : Nat) (s : Sizes)
    (h : prologueChecked N P K = some s) :
    consecutiveFrom 0 (allDispatched P C s) = true ∧
    chunkLenSum (allDispatched P C s) = N ∧
    ∀ i, i < P →
      consecutiveFrom (s.pc * i) (dispatchedChunks P C s i) = true ∧
      chunkLenSum (dispatchedChunks P C s i) = producerShare P s i := by
  have haux := allDispatched_cover_aux N P K C s h P (le_refl P)
  rw [if_pos rfl] at haux
  unfold allDispatched
  refine ⟨haux.1, haux.2, ?_⟩
  intro i hi
  have hcov := dispatchedChunks_cover N P K C s i h
  unfold producerStart at hcov
  exact hcov

/-- C1 counterexample: at `N = 1, P = 3, K = 1` the claim's universally
quantified partition does not exist — `last_producer_chunk_size =
N - (P-1) * producer_chunk_size` underflows in `u64` (`1 - 2`), so
`write_to_file` panics (debug) instead of partitioning `[0, 1)`. -/
theorem write_partition_underflow_cex : prologueChecked 1 3 1 = none := by decide

/-- C1 witness: the amended partition theorem instantiated at
`N = 12, P = 3, K = 2, C = 2` (spec scenario A). -/
theorem write_partition_covers_witness :
    prologueChecked 12 3 2 = some ⟨4, 4, 2, 2, 2, 2⟩ ∧
    (consecutiveFrom 0 (allDispatched 3 2 ⟨4, 4, 2, 2, 2, 2⟩) = true ∧
      chunkLenSum (allDispatched 3 2 ⟨4, 4, 2, 2, 2, 2⟩) = 12 ∧
      ∀ i, i < 3 →
        consecutiveFrom ((4 : Nat) * i) (dispatchedChunks 3 2 ⟨4, 4, 2, 2, 2, 2⟩ i) = true ∧
        chunkLenSum (dispatchedChunks 3 2 ⟨4, 4, 2, 2, 2, 2⟩ i) =
          producerShare 3 ⟨4, 4, 2, 2, 2, 2⟩ i) :=
  ⟨by decide, write_partition_covers 12 3 2 2 ⟨4, 4, 2, 2, 2, 2⟩ (by decide)⟩

/-- C2 counterexample: at `N = 1, P = 2, K = 1, C = 1` the last producer's
share is `0` (`producer_chunk_size * (P-1) = 1 >= N`), yet its trace is a
zero-length `Consume` message followed by `End` — a `Consume` IS sent, so the
claim's "broadcasts End without sending any Consume message" is false. -/
theorem zero_share_consume_cex :
    prologueChecked 1 2 1 = some ⟨1, 0, 1, 1, 0, 0⟩ ∧
    producerEvents 2 1 ⟨1, 0, 1, 1, 0, 0⟩ cbOk 1 =
      [PEvent.consume 0 ⟨1, 1⟩ 0, PEvent.endSig 0] ∧
    PEvent.consume 0 ⟨1, 1⟩ 0 ∈ producerEvents 2 1 ⟨1, 0, 1, 1, 0, 0⟩ cbOk 1 := by
  refine ⟨by decide, by decide, by decide⟩

/-- C2 (amended): in a configuration reached by the engine in which producer
`i`'s share is 0, that producer does not skip its zero-length task: it sends
exactly one `Consume` message, carrying a zero-length buffer at its start
offset, to consumer `(i+1) mod C`, and then broadcasts `End` to every
consumer.  (Zero-length tasks thus produce a message rather than being
skipped; the write performed for them is empty, so the file content is
unaffected.) -/
theorem zero_share_trace (N P K C : Nat) (s : Sizes) (i : Nat)
    (h : prologueChecked N P K = some s) (hC : 0 < C) (hi : i < P)
    (hz : producerShare P s i = 0) :
    producerEvents P C s cbOk i =
      PEvent.consume ((i + 1) % C) { producerIdx := i, offset := producerStart s i } 0 ::
        (List.range C).map PEvent.endSig :=
  producerEvents_zero_share P C s i hz

/-- C2 witness: the amended theorem applied at `N = 1, P = 2, K = 1, C = 2`,
producer 1 (whose share is 0). -/
theorem zero_share_trace_witness :
    (prologueChecked 1 2 1 = some ⟨1, 0, 1, 1, 0, 0⟩ ∧ 0 < 2 ∧ 1 < 2 ∧
      producerShare 2 ⟨1, 0, 1, 1, 0, 0⟩ 1 = 0) ∧
    producerEvents 2 2 ⟨1, 0, 1, 1, 0, 0⟩ cbOk 1 =
      PEvent.consume ((1 + 1) % 2)
          { producerIdx := 1, offset := producerStart ⟨1, 0, 1, 1, 0, 0⟩ 1 } 0 ::
        (List.range 2).map PEvent.endSig :=
  ⟨⟨by decide, by decide, by decide, by decide⟩,
    zero_share_trace 1 2 1 2 ⟨1, 0, 1, 1, 0, 0⟩ 1 (by decide) (by decide) (by decide)
      (by decide)⟩

/-- C3: the consumer loop exits with `Ok(bytes)` once the `End` count reaches
the announced producer total and with `Err(Producer)` immediately on an
`Error` message, but when its input channel closes before the `End` count
reaches the total it does NOT exit: the `break` at write.rs:348 is commented
out, so the loop re-calls `recv()` forever (result `none` in the model).  The
first conjunct evaluates the code at the failing input: one `Consume` of 5
bytes followed by channel closure, with the single `End` never arriving. -/
theorem consumer_loop_behavior :
    (consumerRun [CMsg.consume ⟨0, 0⟩ 5] 0 0).1 = none ∧
    (consumerRun [CMsg.consume ⟨0, 0⟩ 5, CMsg.endSig 0 1] 0 0).1 = some (Except.ok 5) ∧
    (consumerRun [CMsg.errMsg "fail" 7] 0 0).1 =
      some (Except.error (WriteErrorM.producerErr ⟨"fail", 7⟩)) := by
  refine ⟨rfl, rfl, rfl⟩

/-- C5: with a transfer length of 3 starting at offset 0 and the OS
transferring one byte per call, both retry loops issue their third call at
file offset 3 instead of 2 — after each call the source adds the cumulative
transferred count, not the per-call count, to `offset` — so the per-call
ranges are `[0,1), [1,2), [3,4)`: they do not concatenate to `[0,3)`, and
file position 2 is never touched. -/
theorem pread_pwrite_offset_gap :
    readBytesAtRun 3 [OsRet.okRet 1, OsRet.okRet 1, OsRet.okRet 1] 0 0 =
      ([(0, 1), (1, 1), (3, 1)], some (Except.ok ())) ∧
    writeBytesAtRun 3 [OsRet.okRet 1, OsRet.okRet 1, OsRet.okRet 1] 0 0 =
      ([(0, 1), (1, 1), (3, 1)], some (Except.ok ())) ∧
    ∀ c ∈ (readBytesAtRun 3 [OsRet.okRet 1, OsRet.okRet 1, OsRet.okRet 1] 0 0).1,
      ¬(c.1 ≤ 2 ∧ 2 < c.1 + c.2) := by
  refine ⟨rfl, rfl, by decide⟩

/-- C6: when `pread`/`pwrite` reports an OS error, `io_at_unix` returns the
`Other` variant (wrapping the formatted OS error text), not the `IO` variant
the claim names; and on a short read at EOF (`pread` returning 0 with bytes
still missing) the read loop never terminates — it keeps calling `pread`
(`none` for every finite schedule of zero-returns) instead of failing. -/
theorem pread_error_variant_eof :
    (readBytesAtRun 1 [OsRet.errRet "os failure"] 0 0).2 =
      some (Except.error (ReadErrorM.otherErr "os failure")) ∧
    (readBytesAtRun 1 [OsRet.errRet "os failure"] 0 0).2 ≠
      some (Except.error (ReadErrorM.ioErr "os failure")) ∧
    (writeBytesAtRun 1 [OsRet.errRet "os failure"] 0 0).2 =
      some (Except.error (WriteErrorM.otherErr "os failure")) ∧
    ∀ k, (readBytesAtRun 1 (List.replicate k (OsRet.okRet 0)) 0 0).2 = none := by
  refine ⟨rfl, ?_, rfl, ?_⟩
  · rw [show (readBytesAtRun 1 [OsRet.errRet "os failure"] 0 0).2 =
        some (Except.error (ReadErrorM.otherErr "os failure")) from rfl]
    simp
  intro k
  induction k with
  | zero => rfl
  | succ n ih => simpa [readBytesAtRun, List.replicate_succ] using ih

/-- C8 counterexample: a producer whose `Consume` send fails returns
`Err("Cannot send buffer to consumer - ...")` from its thread closure
(write.rs:269-274), but `build_producers` drops the producer `JoinHandle`s,
so `write_to_file` never sees that error: with all consumers reporting `Ok 0`
the call returns `Ok 0`, and with a consumer reporting an IO error it returns
that IO error — in neither case the producer's fatal send error. -/
theorem producer_send_error_dropped_cex :
    writeToFileOutcome [Except.error "Cannot send buffer to consumer - receiving end disconnected"]
      [Except.ok 0] = Except.ok 0 ∧
    writeToFileOutcome [Except.error "Cannot send buffer to consumer - receiving end disconnected"]
      [Except.error (WriteErrorM.ioErr "disk full")] =
      Except.error (WriteErrorM.ioErr "disk full") := by
  refine ⟨rfl, rfl⟩

theorem joinConsumers_all_ok (pre : List Nat) :
    ∀ acc, joinConsumers (pre.map Except.ok) acc = Except.ok (acc + pre.sum) := by
  induction pre with
  | nil => intro acc; simp [joinConsumers]
  | cons b t ih =>
    intro acc
    rw [List.map_cons]
    show joinConsumers (t.map Except.ok) (acc + b) = _
    rw [ih (acc + b), List.sum_cons]
    congr 1
    omega

theorem joinConsumers_first_error (pre : List Nat) (e : WriteErrorM)
    (post : List (Except WriteErrorM Nat)) :
    ∀ acc, joinConsumers (pre.map Except.ok ++ Except.error e :: post) acc =
      Except.error e := by
  induction pre with
  | nil => intro acc; rfl
  | cons b t ih =>
    intro acc
    rw [List.map_cons, List.cons_append]
    show joinConsumers (t.map Except.ok ++ Except.error e :: post) (acc + b) = _
    exact ih (acc + b)

/-- C8 (amended): `write_to_file`'s return value is determined by the
consumer join results alone — the producer threads' `Result` values are
dropped with their `JoinHandle`s in `build_producers`, so a producer's fatal
send error is NOT surfaced.  Among the consumer results, inspected in
consumer order, the first error wins; with no consumer error the call returns
the sum of the consumers' byte counts. -/
theorem join_first_consumer_error (pr pr2 : List (Except String Unit)) (pre : List Nat)
    (e : WriteErrorM) (post : List (Except WriteErrorM Nat)) :
    writeToFileOutcome pr (pre.map Except.ok ++ Except.error e :: post) = Except.error e ∧
    writeToFileOutcome pr (pre.map Except.ok) = Except.ok pre.sum ∧
    writeToFileOutcome pr (pre.map Except.ok ++ Except.error e :: post) =
      writeToFileOutcome pr2 (pre.map Except.ok ++ Except.error e :: post) := by
  refine ⟨joinConsumers_first_error pre e post 0, ?_, rfl⟩
  have := joinConsumers_all_ok pre 0
  rw [Nat.zero_add] at this
  exact this

/-- C10 counterexample: with `num_consumers = 0` the call does NOT panic.
`select_tx`'s `(prev + 1) % 0` (write.rs:87) does panic, but it runs only
inside a producer thread's closure (write.rs:251), whose `JoinHandle` is
dropped by `build_producers` (write.rs:235); `write_to_file` itself joins the
empty `consumers_handles` list (write.rs:183-199) and returns `Ok(0)` — no
panic and no `WriteError` on the calling thread. -/
theorem consumer_zero_returns_ok_cex :
    writeToFileOutcome [Except.error "thread panicked at modulo by zero"] [] =
      Except.ok 0 ∧
    selectTxChecked 0 1 0 2 = none := by
  exact ⟨rfl, rfl⟩

/-- C10 (amended): `write_to_file` validates none of its worker-count
parameters, but the three zero cases fail differently.  With
`num_producers = 0` the size prologue panics on the calling thread for every
`N` and `K` (division by zero at write.rs:145, or `u64` underflow of
`total_size + num_producers - 1` when `N = 0`); with
`chunks_per_producer = 0` it likewise panics for every `N` and `P` (underflow
or division by zero at write.rs:147) — in both cases the call panics (`none`)
rather than returning a `WriteError`.  With `num_consumers = 0` the
`(prev + 1) % 0` in `select_tx` (write.rs:87) panics only on a producer
thread, whose `JoinHandle` is dropped; the call itself joins an empty
consumer list and returns `Ok(0)`, neither panicking nor reporting a
`WriteError`.  Callers must therefore still guarantee `P ≥ 1`, `C ≥ 1`,
`K ≥ 1`. -/
theorem no_parameter_validation :
    (∀ N K, prologueChecked N 0 K = none) ∧
    (∀ N P, prologueChecked N P 0 = none) ∧
    (∀ i prev np, selectTxChecked i prev 0 np = none) ∧
    (∀ pr, writeToFileOutcome pr [] = Except.ok 0) := by
  refine ⟨?_, ?_, ?_, ?_⟩
  · intro N K
    cases hq : prologueChecked N 0 K with
    | none => rfl
    | some s => exact absurd (prologue_some hq).1 (by omega)
  · intro N P
    cases hq : prologueChecked N P 0 with
    | none => rfl
    | some s => exact absurd (prologue_some hq).2.1 (by omega)
  · intro i prev np
    rfl
  · intro pr
    rfl

/-- Round-robin targets: the `k`-th `Consume` message emitted by the producer
loop goes to consumer `(prev + 1 + k) mod C`, for any callback (an error stops
the loop, so the property holds for the messages actually sent). -/
theorem producerLoop_targets (C tc endOff : Nat) (cb : Nat → Except String Unit) :
    ∀ (cfgs : List PCfg) (off prev k t : Nat),
      (consumeTargets (producerLoop C tc endOff cb cfgs off prev)).get? k = some t →
      t = (prev + 1 + k) % C := by
  intro cfgs
  induction cfgs with
  | nil =>
    intro off prev k t hk
    simp [producerLoop, consumeTargets] at hk
  | cons cfg rest ih =>
    intro off prev k t hk
    cases hcb : cb off with
    | error e =>
      rw [producerLoop] at hk
      rw [hcb] at hk
      rw [consumeTargets_errorSigs] at hk
      simp at hk
    | ok u =>
      rw [producerLoop] at hk
      rw [hcb] at hk
      rw [consumeTargets_cons_consume] at hk
      cases k with
      | zero =>
        rw [List.get?_cons_zero] at hk
        injection hk with hk1
        simp only [Nat.add_zero]
        exact hk1.symm
      | succ n =>
        rw [List.get?_cons_succ] at hk
        by_cases hdone : endOff ≤ off + min tc (endOff - off)
        · rw [if_pos hdone, consumeTargets_endSigs] at hk
          simp at hk
        · rw [if_neg hdone] at hk
          have ht := ih (off + min tc (endOff - off)) ((prev + 1) % C) n t hk
          rw [ht, Nat.add_assoc ((prev + 1) % C) 1 n, Nat.mod_add_mod]
          congr 1
          omega

/-- C9: the consumer chosen for the `k`-th `Consume` message (0-based)
dispatched by producer `i` is consumer `(i + k + 1) mod C` — a deterministic
per-producer round robin with `next = (prev + 1) mod C` starting from
`prev = i` — and every such message targets exactly one consumer index below
`C`. -/
theorem round_robin_selection (N P K C : Nat) (s : Sizes) (cb : Nat → Except String Unit)
    (i : Nat) (h : prologueChecked N P K = some s) (hC : 0 < C) :
    ∀ k t, (consumeTargets (producerEvents P C s cb i)).get? k = some t →
      t = (i + k + 1) % C ∧ t < C := by
  intro k t hk
  unfold producerEvents at hk
  have ht := producerLoop_targets C (producerTaskChunk P s i) (producerEndOff P s i) cb
    _ _ _ k t hk
  constructor
  · rw [ht]
    congr 1
    omega
  · rw [ht]
    exact Nat.mod_lt _ hC

/-- C9 witness: the round-robin theorem applied at
`N = 12, P = 3, K = 2, C = 2`, producer 0. -/
theorem round_robin_selection_witness :
    (prologueChecked 12 3 2 = some ⟨4, 4, 2, 2, 2, 2⟩ ∧ 0 < 2) ∧
    ∀ k t, (consumeTargets (producerEvents 3 2 ⟨4, 4, 2, 2, 2, 2⟩ cbOk 0)).get? k = some t →
      t = (0 + k + 1) % 2 ∧ t < 2 :=
  ⟨⟨by decide, by decide⟩,
    round_robin_selection 12 3 2 2 ⟨4, 4, 2, 2, 2, 2⟩ cbOk 0 (by decide) (by decide)⟩

/-- Error-path lemma: if the callback succeeds on the first `m` chunks of the
all-success dispatch and fails with `e` on the `m`-th chunk's offset `o`, the
producer loop emits exactly the first `m` `Consume` messages of the
all-success trace followed by an `Error` broadcast carrying the
Debug-formatted message and offset `o` to every consumer. -/
theorem producerLoop_err_prefix (C tc endOff : Nat) (cb : Nat → Except String Unit)
    (e : String) :
    ∀ (m : Nat) (cfgs : List PCfg) (off prev o L : Nat),
      (consumeChunks (producerLoop C tc endOff cbOk cfgs off prev)).get? m = some (o, L) →
      (∀ j o2 L2, j < m →
        (consumeChunks (producerLoop C tc endOff cbOk cfgs off prev)).get? j = some (o2, L2) →
        cb o2 = Except.ok ()) →
      cb o = Except.error e →
      producerLoop C tc endOff cb cfgs off prev =
        (producerLoop C tc endOff cbOk cfgs off prev).take m ++
          (List.range C).map (fun x => PEvent.errorSig x (rustDebugFmt e) o) := by
  intro m
  induction m with
  | zero =>
    intro cfgs off prev o L hm hok herr
    match cfgs with
    | [] => simp [producerLoop, consumeChunks] at hm
    | cfg :: rest =>
      simp only [producerLoop, cbOk, consumeChunks_cons_consume, List.get?_cons_zero,
        Option.some.injEq, Prod.mk.injEq] at hm
      obtain ⟨ho, -⟩ := hm
      subst ho
      rw [producerLoop]
      rw [herr, List.take_zero, List.nil_append]
  | succ n ih =>
    intro cfgs off prev o L hm hok herr
    match cfgs with
    | [] => simp [producerLoop, consumeChunks] at hm
    | cfg :: rest =>
      have hcb0 : cb off = Except.ok () := by
        apply hok 0 off (min tc (endOff - off)) (Nat.succ_pos n)
        simp only [producerLoop, cbOk, consumeChunks_cons_consume, List.get?_cons_zero]
      by_cases hdone : endOff ≤ off + min tc (endOff - off)
      · exfalso
        simp only [producerLoop, cbOk, if_pos hdone, consumeChunks_cons_consume,
          consumeChunks_endSigs, List.get?_cons_succ] at hm
        simp at hm
      · simp only [producerLoop, cbOk, if_neg hdone, consumeChunks_cons_consume,
          List.get?_cons_succ] at hm
        have hok2 : ∀ j o2 L2, j < n →
            (consumeChunks (producerLoop C tc endOff cbOk rest (off + min tc (endOff - off))
              ((prev + 1) % C))).get? j = some (o2, L2) → cb o2 = Except.ok () := by
          intro j o2 L2 hj hg
          apply hok (j + 1) o2 L2 (by omega)
          simp only [producerLoop, cbOk, if_neg hdone, consumeChunks_cons_consume,
            List.get?_cons_succ]
          exact hg
        have hrec := ih rest (off + min tc (endOff - off)) ((prev + 1) % C) o L hm hok2 herr
        rw [producerLoop]
        rw [hcb0]
        conv_rhs => rw [producerLoop]
        rw [show cbOk off = Except.ok () from rfl]
        rw [if_neg hdone, if_neg hdone, hrec, List.take_succ_cons, List.cons_append]

/-- C4 counterexample: with a callback failing with the string `"boom"`, the
`Error` message's `msg` field is `format!`-Debug of the error —
`"\"boom\""`, the six characters including the quotes — not the callback's
error string `"boom"` itself. -/
theorem producer_error_msg_cex :
    prologueChecked 4 1 1 = some ⟨4, 4, 4, 4, 4, 4⟩ ∧
    producerEvents 1 1 ⟨4, 4, 4, 4, 4, 4⟩ (fun _ => Except.error "boom") 0 =
      [PEvent.errorSig 0 "\"boom\"" 0] ∧
    rustDebugFmt "boom" = "\"boom\"" ∧
    ("\"boom\"" : String) ≠ "boom" := by
  refine ⟨by decide, rfl, rfl, by decide⟩

/-- C4 (amended): if the callback succeeds on the first `m` chunks of
producer `i`'s dispatch and fails with error `e` at the `m`-th chunk's
partition offset `o`, the producer sends the first `m` `Consume` messages
unchanged and then broadcasts `Error(ProducerError)` to every consumer, with
`offset = o` (the partitioner's offset for the failing chunk) and `msg` equal
to the Debug formatting of `e` (for a `String` error this wraps the text in
escaped quotes), then exits; any consumer receiving that `Error` immediately
returns `Err(Producer(ProducerError))` with the same fields, and
`write_to_file` surfaces it when that consumer's result is reached first in
the join loop. -/
theorem producer_error_broadcast (N P K C : Nat) (s : Sizes)
    (cb : Nat → Except String Unit) (i m o L : Nat) (e : String)
    (h : prologueChecked N P K = some s)
    (hm : (dispatchedChunks P C s i).get? m = some (o, L))
    (hok : ∀ j o2 L2, j < m → (dispatchedChunks P C s i).get? j = some (o2, L2) →
      cb o2 = Except.ok ())
    (herr : cb o = Except.error e) :
    producerEvents P C s cb i =
      (producerEvents P C s cbOk i).take m ++
        (List.range C).map (fun x => PEvent.errorSig x (rustDebugFmt e) o) ∧
    (∀ rest ec b, (consumerRun (CMsg.errMsg (rustDebugFmt e) o :: rest) ec b).1 =
      some (Except.error (WriteErrorM.producerErr ⟨rustDebugFmt e, o⟩))) ∧
    (∀ pr crs, writeToFileOutcome pr
        (Except.error (WriteErrorM.producerErr ⟨rustDebugFmt e, o⟩) :: crs) =
      Except.error (WriteErrorM.producerErr ⟨rustDebugFmt e, o⟩)) := by
  refine ⟨?_, fun rest ec b => rfl, fun pr crs => rfl⟩
  unfold dispatchedChunks producerEvents at hm hok
  unfold producerEvents
  exact producerLoop_err_prefix C (producerTaskChunk P s i) (producerEndOff P s i) cb e m
    _ _ _ o L hm hok herr

/-- C4 witness: the amended theorem applied at `N = 4, P = 2, K = 2, C = 1`,
producer 0, with a callback that succeeds at offset 0 and fails with `"x"` at
offset 1 (its second chunk). -/
theorem producer_error_broadcast_witness :
    (prologueChecked 4 2 2 = some ⟨2, 2, 1, 1, 1, 1⟩ ∧
      (dispatchedChunks 2 1 ⟨2, 2, 1, 1, 1, 1⟩ 0).get? 1 = some (1, 1) ∧
      (fun o => if o = 1 then Except.error "x" else Except.ok ()) 1 = Except.error "x") ∧
    (producerEvents 2 1 ⟨2, 2, 1, 1, 1, 1⟩
        (fun o => if o = 1 then Except.error "x" else Except.ok ()) 0 =
      (producerEvents 2 1 ⟨2, 2, 1, 1, 1, 1⟩ cbOk 0).take 1 ++
        (List.range 1).map (fun x => PEvent.errorSig x (rustDebugFmt "x") 1) ∧
      (∀ rest ec b, (consumerRun (CMsg.errMsg (rustDebugFmt "x") 1 :: rest) ec b).1 =
        some (Except.error (WriteErrorM.producerErr ⟨rustDebugFmt "x", 1⟩))) ∧
      (∀ pr crs, writeToFileOutcome pr
          (Except.error (WriteErrorM.producerErr ⟨rustDebugFmt "x", 1⟩) :: crs) =
        Except.error (WriteErrorM.producerErr ⟨rustDebugFmt "x", 1⟩))) := by
  refine ⟨⟨by decide, rfl, rfl⟩, ?_⟩
  refine producer_error_broadcast 4 2 2 1 ⟨2, 2, 1, 1, 1, 1⟩
    (fun o => if o = 1 then Except.error "x" else Except.ok ()) 0 1 1 1 "x"
    (by decide) rfl ?_ rfl
  intro j o2 L2 hj hg
  obtain rfl : j = 0 := by omega
  rw [show (dispatchedChunks 2 1 ⟨2, 2, 1, 1, 1, 1⟩ 0).get? 0 = some (0, 1) from rfl] at hg
  simp only [Option.some.injEq, Prod.mk.injEq] at hg
  obtain ⟨h1, -⟩ := hg
  subst h1
  rfl

theorem foldr_max_le (b : Nat) : ∀ l : List Nat, (∀ x ∈ l, x ≤ b) → l.foldr max 0 ≤ b := by
  intro l
  induction l with
  | nil => intro _; simp
  | cons a t ih =>
    intro hall
    simp only [List.foldr_cons]
    exact Nat.max_le.mpr ⟨hall a (List.mem_cons_self a t),
      ih fun x hx => hall x (List.mem_cons_of_mem a hx)⟩

theorem le_foldr_max : ∀ (l : List Nat) (x : Nat), x ∈ l → x ≤ l.foldr max 0 := by
  intro l
  induction l with
  | nil => intro x hx; cases hx
  | cons a t ih =>
    intro x hx
    simp only [List.foldr_cons]
    rcases List.mem_cons.mp hx with h | h
    · subst h; exact Nat.le_max_left _ _
    · exact le_trans (ih x h) (Nat.le_max_right _ _)

theorem consumeChunks_mem : ∀ (es : List PEvent) (o len : Nat),
    (o, len) ∈ consumeChunks es →
    ∃ tgt cfg, PEvent.consume tgt cfg len ∈ es ∧ PCfg.offset cfg = o := by
  intro es
  induction es with
  | nil => intro o len hm; cases hm
  | cons ev rest ih =>
    intro o len hm
    match ev with
    | PEvent.consume t cfg l =>
      rw [consumeChunks_cons_consume] at hm
      rcases List.mem_cons.mp hm with hh | ht
      · injection hh with h1 h2
        subst h2
        exact ⟨t, cfg, List.mem_cons_self _ _, h1.symm⟩
      · obtain ⟨tgt, cfg2, hmem, hoff⟩ := ih o len ht
        exact ⟨tgt, cfg2, List.mem_cons_of_mem _ hmem, hoff⟩
    | PEvent.endSig t =>
      have hm2 : (o, len) ∈ consumeChunks rest := hm
      obtain ⟨tgt, cfg2, hmem, hoff⟩ := ih o len hm2
      exact ⟨tgt, cfg2, List.mem_cons_of_mem _ hmem, hoff⟩
    | PEvent.errorSig t m off =>
      have hm2 : (o, len) ∈ consumeChunks rest := hm
      obtain ⟨tgt, cfg2, hmem, hoff⟩ := ih o len hm2
      exact ⟨tgt, cfg2, List.mem_cons_of_mem _ hmem, hoff⟩

/-- Producer-side buffer invariants: every `Consume` message emitted by the
loop carries a config whose `producer_tx` is the one all received configs
carry (the producer only ever updates `cfg.offset`, write.rs:267), and a
buffer length bounded by the task chunk size. -/
theorem producerLoop_consume_bound (C tc endOff : Nat) (cb : Nat → Except String Unit)
    (iv : Nat) :
    ∀ (cfgs : List PCfg) (off prev : Nat), (∀ c ∈ cfgs, PCfg.producerIdx c = iv) →
      ∀ (tgt : Nat) (cfg : PCfg) (len : Nat),
        PEvent.consume tgt cfg len ∈ producerLoop C tc endOff cb cfgs off prev →
        PCfg.producerIdx cfg = iv ∧ len ≤ tc := by
  intro cfgs
  induction cfgs with
  | nil =>
    intro off prev hall tgt cfg len hmem
    cases hmem
  | cons c0 rest ih =>
    intro off prev hall tgt cfg len hmem
    cases hcb : cb off with
    | error e =>
      rw [producerLoop] at hmem
      rw [hcb] at hmem
      rcases List.mem_map.mp hmem with ⟨x, -, hx⟩
      exact PEvent.noConfusion hx
    | ok u =>
      rw [producerLoop] at hmem
      rw [hcb] at hmem
      rcases List.mem_cons.mp hmem with hh | ht
      · injection hh with h1 h2 h3
        subst h2
        refine ⟨hall c0 (List.mem_cons_self _ _), ?_⟩
        rw [h3]
        exact Nat.min_le_left _ _
      · by_cases hdone : endOff ≤ off + min tc (endOff - off)
        · rw [if_pos hdone] at ht
          rcases List.mem_map.mp ht with ⟨x, -, hx⟩
          exact PEvent.noConfusion hx
        · rw [if_neg hdone] at ht
          exact ih (off + min tc (endOff - off)) ((prev + 1) % C)
            (fun c hc => hall c (List.mem_cons_of_mem _ hc)) tgt cfg len ht

/-- When producer `i`'s share is positive, its first dispatched chunk is
`(start, min(task_chunk, share))`. -/
theorem dispatched_mem_head (P C : Nat) (s : Sizes) (i : Nat)
    (hpos : 0 < producerShare P s i) :
    (producerStart s i, min (producerTaskChunk P s i) (producerShare P s i)) ∈
      dispatchedChunks P C s i := by
  unfold dispatchedChunks producerEvents
  rw [List.replicate_succ]
  have heq : producerEndOff P s i - producerStart s i = producerShare P s i := by
    unfold producerEndOff
    omega
  rw [producerLoop]
  rw [show cbOk (producerStart s i) = Except.ok () from rfl, heq,
    consumeChunks_cons_consume]
  exact List.mem_cons_self _ _

theorem mul_pred_add (a b : Nat) (h : 0 < a) : a * b = (a - 1) * b + b := by
  cases a with
  | zero => exact absurd h (lt_irrefl 0)
  | succ p => simp [Nat.succ_sub_one, Nat.succ_mul]

/-- Under a successful size prologue, `reserved_size` equals the maximum
chunk length dispatched across the whole partition. -/
theorem reserved_eq_max (N P K C : Nat) (s : Sizes)
    (h : prologueChecked N P K = some s) :
    reservedSize s = maxChunkLen P C s := by
  obtain ⟨hP, hK, hpc, hub, hlpc, htcf, htcle, hltcf, hlptcf, hlptcle, hlltcf, hple⟩ :=
    prologue_some h
  have hbrP : P * s.pc = (P - 1) * s.pc + s.pc := mul_pred_add P s.pc hP
  have hlpc_le : s.lpc ≤ s.pc := by omega
  have hdm1 := Nat.div_add_mod (s.pc + K - 1) K
  have hml1 := Nat.mod_lt (s.pc + K - 1) hK
  rw [← htcf] at hdm1
  have hpcle : s.pc ≤ K * s.tc := by omega
  have hbrK1 : K * s.tc = (K - 1) * s.tc + s.tc := mul_pred_add K s.tc hK
  have hltc_le : s.ltc ≤ s.tc := by omega
  have hdm2 := Nat.div_add_mod (s.lpc + K - 1) K
  have hml2 := Nat.mod_lt (s.lpc + K - 1) hK
  rw [← hlptcf] at hdm2
  have hlpcle : s.lpc ≤ K * s.lptc := by omega
  have hbrK2 : K * s.lptc = (K - 1) * s.lptc + s.lptc := mul_pred_add K s.lptc hK
  have hlltc_le : s.lltc ≤ s.lptc := by omega
  have hlptc_le : s.lptc ≤ s.tc := by
    rw [hlptcf, htcf]
    exact Nat.div_le_div_right (by omega)
  have hub2 : ∀ x ∈ (allDispatched P C s).map Prod.snd, x ≤ s.tc := by
    intro x hx
    rcases List.mem_map.mp hx with ⟨pr, hpr, rfl⟩
    rcases List.mem_flatMap.mp hpr with ⟨i, hi, hmem⟩
    unfold dispatchedChunks at hmem
    rcases consumeChunks_mem _ pr.1 pr.2 hmem with ⟨tgt, cfg, hev, -⟩
    unfold producerEvents at hev
    have hb := producerLoop_consume_bound C (producerTaskChunk P s i) (producerEndOff P s i)
      cbOk i _ _ _ (fun c hc => by rw [List.eq_of_mem_replicate hc]) tgt cfg pr.2 hev
    have h3 : producerTaskChunk P s i ≤ s.tc := by
      unfold producerTaskChunk
      split_ifs
      · exact hlptc_le
      · exact le_refl _
    omega
  have htc_mem : s.tc ≤ maxChunkLen P C s := by
    by_cases hpc0 : s.pc = 0
    · have htc0 : s.tc = 0 := by
        rw [htcf, hpc0]
        have hlt : K - 1 < K := by omega
        simp [Nat.div_eq_of_lt hlt]
      rw [htc0]
      exact Nat.zero_le _
    · have hpcpos : 0 < s.pc := Nat.pos_of_ne_zero hpc0
      have htc_le_pc : s.tc ≤ s.pc := by
        have h1 : s.pc ≤ s.pc * K := Nat.le_mul_of_pos_right _ hK
        have h2 : (s.pc + 1) * K = s.pc * K + K := Nat.succ_mul _ _
        have h3 : (s.pc + K - 1) / K < s.pc + 1 := (Nat.div_lt_iff_lt_mul hK).mpr (by omega)
        rw [htcf]
        omega
      have hkey : min (producerTaskChunk P s 0) (producerShare P s 0) = s.tc ∧
          0 < producerShare P s 0 := by
        by_cases hP1 : P = 1
        · subst hP1
          have hlpc_eq : s.lpc = s.pc := by
            simp at hpc hlpc
            omega
          have hlptc_eq : s.lptc = s.tc := by rw [hlptcf, htcf, hlpc_eq]
          unfold producerTaskChunk producerShare
          simp only [if_pos rfl]
          rw [hlptc_eq, hlpc_eq]
          exact ⟨Nat.min_eq_left htc_le_pc, hpcpos⟩
        · have h0ne : ¬((0 : Nat) = P - 1) := by omega
          unfold producerTaskChunk producerShare
          rw [if_neg h0ne, if_neg h0ne]
          exact ⟨Nat.min_eq_left htc_le_pc, hpcpos⟩
      have hhead := dispatched_mem_head P C s 0 hkey.2
      rw [hkey.1] at hhead
      have hmm : s.tc ∈ (allDispatched P C s).map Prod.snd := by
        apply List.mem_map.mpr
        refine ⟨(producerStart s 0, s.tc), ?_, rfl⟩
        apply List.mem_flatMap.mpr
        exact ⟨0, List.mem_range.mpr hP, hhead⟩
      exact le_foldr_max _ _ hmm
  apply Nat.le_antisymm
  · unfold reservedSize
    apply Nat.max_le.mpr
    refine ⟨Nat.max_le.mpr ⟨?_, ?_⟩, htc_mem⟩
    · exact le_trans hltc_le htc_mem
    · exact le_trans (le_trans hlltc_le hlptc_le) htc_mem
  · unfold maxChunkLen
    apply foldr_max_le
    intro x hx
    exact le_trans (hub2 x hx) (le_trans (Nat.le_max_right (max s.ltc s.lltc) s.tc) (le_refl _))

/-- Consumer-side buffer return: every buffer a consumer sends back goes to
the `producer_tx` carried in the config of some `Consume` message it received
(write.rs:325). -/
theorem consumerRun_returns :
    ∀ (msgs : List CMsg) (ec b r : Nat), r ∈ (consumerRun msgs ec b).2 →
      ∃ cfg len, CMsg.consume cfg len ∈ msgs ∧ r = PCfg.producerIdx cfg := by
  intro msgs
  induction msgs with
  | nil =>
    intro ec b r hr
    cases hr
  | cons msg rest ih =>
    intro ec b r hr
    match msg with
    | CMsg.errMsg m o =>
      cases hr
    | CMsg.consume cfg len =>
      rcases List.mem_cons.mp hr with hh | ht
      · exact ⟨cfg, len, List.mem_cons_self _ _, hh⟩
      · obtain ⟨cfg2, len2, hmem, hreq⟩ := ih ec (b + len) r ht
        exact ⟨cfg2, len2, List.mem_cons_of_mem _ hmem, hreq⟩
    | CMsg.endSig pid p =>
      rw [consumerRun] at hr
      by_cases hp : p ≤ ec + 1
      · rw [if_pos hp] at hr
        cases hr
      · rw [if_neg hp] at hr
        obtain ⟨cfg2, len2, hmem, hreq⟩ := ih (ec + 1) b r hr
        exact ⟨cfg2, len2, List.mem_cons_of_mem _ hmem, hreq⟩

/-- C7: the engine pre-allocates exactly `P * min(B, K)` buffers, all in
`launch` before any worker consumes; each has capacity `2 * R` where `R`
(`reserved_size`) equals the maximum chunk length across the whole partition,
so capacity covers every logical length a producer later assigns
(`len ≤ 2R`); and every config carries its original producer's `producer_tx`
through the whole cycle — `launch` seeds producer `i`'s queue only with
configs pointing back at producer `i`, the producer loop never changes the
field, and a consumer returns each buffer to the `producer_tx` of the config
it arrived with — so no buffer migrates between producers. -/
theorem buffer_pool_invariants (N P C K B : Nat) (s : Sizes)
    (h : prologueChecked N P K = some s) :
    (launchSeeds P C K B s).length = P * min B K ∧
    (∀ sd ∈ launchSeeds P C K B s, BufM.cap (Seeded.buf sd) = 2 * reservedSize s ∧
      PCfg.producerIdx (Seeded.cfg sd) = Seeded.queueIdx sd) ∧
    reservedSize s = maxChunkLen P C s ∧
    (∀ (cb : Nat → Except String Unit) (i tgt : Nat) (cfg : PCfg) (len : Nat),
      PEvent.consume tgt cfg len ∈ producerEvents P C s cb i →
        PCfg.producerIdx cfg = i ∧ len ≤ producerTaskChunk P s i ∧
        len ≤ 2 * reservedSize s) ∧
    (∀ (msgs : List CMsg) (ec b r : Nat), r ∈ (consumerRun msgs ec b).2 →
      ∃ cfg len, CMsg.consume cfg len ∈ msgs ∧ r = PCfg.producerIdx cfg) := by
  obtain ⟨hP, hK, hpc, hub, hlpc, htcf, htcle, hltcf, hlptcf, hlptcle, hlltcf, hple⟩ :=
    prologue_some h
  have hdm2 := Nat.div_add_mod (s.lpc + K - 1) K
  have hml2 := Nat.mod_lt (s.lpc + K - 1) hK
  rw [← hlptcf] at hdm2
  have hbrP : P * s.pc = (P - 1) * s.pc + s.pc := mul_pred_add P s.pc hP
  have hlpc_le : s.lpc ≤ s.pc := by omega
  have hlptc_le : s.lptc ≤ s.tc := by
    rw [hlptcf, htcf]
    exact Nat.div_le_div_right (by omega)
  refine ⟨?_, ?_, reserved_eq_max N P K C s h, ?_, consumerRun_returns⟩
  · unfold launchSeeds
    rw [List.length_flatMap]
    simp [Function.comp_def, List.length_replicate, List.map_const', List.sum_replicate,
      smul_eq_mul, Nat.min_comm B K]
  · intro sd hsd
    unfold launchSeeds at hsd
    simp only [List.mem_flatMap, List.mem_map, List.mem_range] at hsd
    obtain ⟨i, hi, x, hx, rfl⟩ := hsd
    exact ⟨rfl, rfl⟩
  · intro cb i tgt cfg len hmem
    unfold producerEvents at hmem
    have hb := producerLoop_consume_bound C (producerTaskChunk P s i) (producerEndOff P s i)
      cb i _ _ _ (fun c hc => by rw [List.eq_of_mem_replicate hc]) tgt cfg len hmem
    refine ⟨hb.1, hb.2, ?_⟩
    have h3 : producerTaskChunk P s i ≤ s.tc := by
      unfold producerTaskChunk
      split_ifs
      · exact hlptc_le
      · exact le_refl _
    have h4 : s.tc ≤ reservedSize s := Nat.le_max_right (max s.ltc s.lltc) s.tc
    omega

/-- C7 witness: the buffer-pool theorem applied at
`N = 12, P = 3, C = 2, K = 2, B = 2`. -/
theorem buffer_pool_invariants_witness :
    prologueChecked 12 3 2 = some ⟨4, 4, 2, 2, 2, 2⟩ ∧
    ((launchSeeds 3 2 2 2 ⟨4, 4, 2, 2, 2, 2⟩).length = 3 * min 2 2 ∧
      (∀ sd ∈ launchSeeds 3 2 2 2 ⟨4, 4, 2, 2, 2, 2⟩,
        BufM.cap (Seeded.buf sd) = 2 * reservedSize ⟨4, 4, 2, 2, 2, 2⟩ ∧
        PCfg.producerIdx (Seeded.cfg sd) = Seeded.queueIdx sd) ∧
      reservedSize ⟨4, 4, 2, 2, 2, 2⟩ = maxChunkLen 3 2 ⟨4, 4, 2, 2, 2, 2⟩ ∧
      (∀ (cb : Nat → Except String Unit) (i tgt : Nat) (cfg : PCfg) (len : Nat),
        PEvent.consume tgt cfg len ∈ producerEvents 3 2 ⟨4, 4, 2, 2, 2, 2⟩ cb i →
          PCfg.producerIdx cfg = i ∧ len ≤ producerTaskChunk 3 ⟨4, 4, 2, 2, 2, 2⟩ i ∧
          len ≤ 2 * reservedSize ⟨4, 4, 2, 2, 2, 2⟩) ∧
      (∀ (msgs : List CMsg) (ec b r : Nat), r ∈ (consumerRun msgs ec b).2 →
        ∃ cfg len, CMsg.consume cfg len ∈ msgs ∧ r = PCfg.producerIdx cfg)) :=
  ⟨by decide, buffer_pool_invariants 12 3 2 2 2 ⟨4, 4, 2, 2, 2, 2⟩ (by decide)⟩
